import Mathlib

/-!
Verification of the `@kikuchan/decimal` arbitrary-precision decimal engine.

A value of class `DecimalImpl` is the pair `(coeff, digits)` of JavaScript
bigints, denoting the exact rational number `coeff × 10^(-digits)`.  The
definitions below are a shallow embedding of the methods of `DecimalImpl`:
JavaScript bigints become `ℤ`, bigint `/` and `%` (which truncate toward zero)
become `Int.tdiv` and `Int.tmod`, and methods that `throw` return
`Except DecErr _`.  Mutating (`$`-suffixed) and cloning methods compute the
same `(coeff, digits)` pair, so a single pure function stands for both.
-/

set_option maxHeartbeats 1000000

deriving instance DecidableEq for Except

/-- A decimal value: the `(coeff, digits)` pair of `DecimalImpl`, denoting
`coeff × 10^(-digits)`. -/
structure Decimal where
  coeff : ℤ
  digits : ℤ
deriving DecidableEq, Repr

/-- The `RoundingMode` union type: `'trunc' | 'floor' | 'ceil' | 'round'`. -/
inductive RoundingMode where
  | trunc
  | floor
  | ceil
  | round
deriving DecidableEq, Repr

/-- One constructor per distinct `throw new Error(...)` reachable from the
operations modelled here, named after the spec's error taxonomy. -/
inductive DecErr where
  | invalidNumber
  | divisionByZero
  | invalidStep
  | undefinedZeroNegativePower
  | orderUndefinedForZero
deriving DecidableEq, Repr

/-- `pow10n(n)`: `10n ** BigInt(n)`.  Every call site in the source passes a
non-negative argument (a negative one would throw a `RangeError`), so `toNat`
is faithful on all reachable inputs. -/
def pow10n (n : ℤ) : ℤ := 10 ^ n.toNat

/-- `ensureDigits`: a negative requested digit count is clamped to `0n`. -/
def ensureDigits (z : ℤ) : ℤ := if z < 0 then 0 else z

namespace Decimal

/-- The exact rational value `coeff × 10^(-digits)` denoted by a `Decimal`. -/
def val (a : Decimal) : ℚ := (a.coeff : ℚ) * (10 : ℚ) ^ (-a.digits)

/-- `alignForOperation`: the common (larger) scale of the two operands. -/
def alignDigits (a b : Decimal) : ℤ := max a.digits b.digits

/-- `alignForOperation`: `a`'s coefficient rescaled to the common scale. -/
def alignA (a b : Decimal) : ℤ := a.coeff * pow10n (alignDigits a b - a.digits)

/-- `alignForOperation`: `b`'s coefficient rescaled to the common scale. -/
def alignB (a b : Decimal) : ℤ := b.coeff * pow10n (alignDigits a b - b.digits)

/-- `add$`: align to the larger scale, add coefficients. -/
def add (a b : Decimal) : Decimal := ⟨alignA a b + alignB a b, alignDigits a b⟩

/-- `sub$`: align to the larger scale, subtract coefficients. -/
def sub (a b : Decimal) : Decimal := ⟨alignA a b - alignB a b, alignDigits a b⟩

/-- `cmp`: align scales, compare coefficients. -/
def cmp (a b : Decimal) : ℤ :=
  if alignA a b = alignB a b then 0 else if alignB a b < alignA a b then 1 else -1

/-- `eq`: `cmp(v) === 0`. -/
def eq (a b : Decimal) : Bool := decide (cmp a b = 0)

/-- `abs$`: negate the coefficient when negative. -/
def abs (a : Decimal) : Decimal := if a.coeff < 0 then ⟨-a.coeff, a.digits⟩ else a

/-- `neg$`. -/
def neg (a : Decimal) : Decimal := ⟨-a.coeff, a.digits⟩

/-- The quotient computation of the private method `#div$`: a truncating
bigint division (`Int.tdiv`) followed by the mode-dependent adjustment.  The
source computes `positive = numerator >= 0n` and adjusts the truncated
quotient by `±1` exactly as below. -/
def adjustQuotient (numerator denominator : ℤ) (mode : RoundingMode) : ℤ :=
  let quotient := numerator.tdiv denominator
  let remainder := numerator - quotient * denominator
  if remainder ≠ 0 ∧ mode ≠ RoundingMode.trunc then
    match mode with
    | RoundingMode.floor => if 0 ≤ numerator then quotient else quotient - 1
    | RoundingMode.ceil => if 0 ≤ numerator then quotient + 1 else quotient
    | RoundingMode.round =>
        if (if denominator < 0 then -denominator else denominator) ≤ |remainder| * 2 then
          if 0 ≤ numerator then quotient + 1 else quotient - 1
        else quotient
    | RoundingMode.trunc => quotient
  else quotient

/-- `#div$(divisor, targetDigits, mode)`: scale so that the integer division
yields exactly `targetDigits` fractional digits, then adjust per mode. -/
def divCore (a divisor : Decimal) (targetDigits : ℤ) (mode : RoundingMode) : Decimal :=
  let shift := divisor.digits + targetDigits - a.digits
  let numerator := if 0 ≤ shift then a.coeff * pow10n shift else a.coeff
  let denominator := if 0 ≤ shift then divisor.coeff else divisor.coeff * pow10n (-shift)
  ⟨adjustQuotient numerator denominator mode, targetDigits⟩

/-- `#rescale$(targetDigits, mode)`: zero keeps its coefficient and takes the
target scale; widening multiplies the coefficient; narrowing divides by one
at the target scale. -/
def rescaleCore (a : Decimal) (targetDigits : ℤ) (mode : RoundingMode) : Decimal :=
  if a.coeff = 0 then ⟨a.coeff, targetDigits⟩
  else if targetDigits = a.digits then a
  else if a.digits < targetDigits then
    ⟨a.coeff * pow10n (targetDigits - a.digits), targetDigits⟩
  else divCore a ⟨1, 0⟩ targetDigits mode

/-- The `while` loop of `#stripTrailingZeros$`, with explicit fuel; the loop
decrements `digits` while it stays positive, so `digits.toNat` fuel is enough. -/
def stripGo : ℕ → ℤ → ℤ → Decimal
  | 0, c, d => ⟨c, d⟩
  | fuel + 1, c, d =>
      if 0 < d ∧ c.tmod 10 = 0 then stripGo fuel (c.tdiv 10) (d - 1) else ⟨c, d⟩

/-- `#stripTrailingZeros$`: a non-positive scale or a zero coefficient is
returned unchanged; otherwise divide the coefficient by 10 while divisible. -/
def stripTrailingZeros (a : Decimal) : Decimal :=
  if a.digits ≤ 0 ∨ a.coeff = 0 then a
  else stripGo a.digits.toNat a.coeff a.digits

/-- `round$(digits, force)`. -/
def round (a : Decimal) (digits : ℤ) (force : Bool) : Decimal :=
  if force = false ∧ a.digits ≤ digits then a else rescaleCore a digits RoundingMode.round

/-- `floor$(digits, force)`. -/
def floor (a : Decimal) (digits : ℤ) (force : Bool) : Decimal :=
  if force = false ∧ a.digits ≤ digits then a else rescaleCore a digits RoundingMode.floor

/-- `ceil$(digits, force)`. -/
def ceil (a : Decimal) (digits : ℤ) (force : Bool) : Decimal :=
  if force = false ∧ a.digits ≤ digits then a else rescaleCore a digits RoundingMode.ceil

/-- `trunc$(digits, force)`. -/
def trunc (a : Decimal) (digits : ℤ) (force : Bool) : Decimal :=
  if force = false ∧ a.digits ≤ digits then a else rescaleCore a digits RoundingMode.trunc

/-- `rescale$(digits, mode)`: no digit target strips trailing zeros. -/
def rescale (a : Decimal) (digits : Option ℤ) (mode : RoundingMode) : Decimal :=
  match digits with
  | none => stripTrailingZeros a
  | some d => rescaleCore a d mode

/-- `div$(v, digits, mode)`: check the divisor, shortcut a zero dividend, run
`#div$`, and strip trailing zeros only when no explicit digit count was given.
The default digit count is `DEFAULT_DIVISION_PRECISION = 18n`. -/
def div (a b : Decimal) (digits : Option ℤ) (mode : RoundingMode) : Except DecErr Decimal :=
  let targetDigits := ensureDigits (digits.getD 18)
  if b.coeff = 0 then Except.error DecErr.divisionByZero
  else if a.coeff = 0 then Except.ok a
  else
    let r := divCore a b targetDigits mode
    Except.ok (if digits.isNone then stripTrailingZeros r else r)

/-- `mul$(v, digits)`: multiply coefficients, add scales, optionally round. -/
def mul (a b : Decimal) (digits : Option ℤ) : Decimal :=
  let m : Decimal := ⟨a.coeff * b.coeff, a.digits + b.digits⟩
  match digits with
  | none => m
  | some d => round m d false

/-- `inverse$(digits)`: fail on zero, then `1 / this` through `div$` with the
clamped digit count and the default `'round'` mode. -/
def inverse (a : Decimal) (digits : ℤ) : Except DecErr Decimal :=
  if a.coeff = 0 then Except.error DecErr.divisionByZero
  else div ⟨1, 0⟩ a (some (ensureDigits digits)) RoundingMode.round

/-- `mod$(v)`: align scales, take the truncating remainder. -/
def mod (a b : Decimal) : Except DecErr Decimal :=
  if b.coeff = 0 then Except.error DecErr.divisionByZero
  else Except.ok ⟨(alignA a b).tmod (alignB a b), alignDigits a b⟩

/-- `roundBy$(step, mode)`: divide by `|step|` at scale 0, multiply back. -/
def roundBy (a step : Decimal) (mode : RoundingMode) : Except DecErr Decimal :=
  let multiple := abs step
  if multiple.coeff = 0 then Except.error DecErr.invalidStep
  else (div a multiple (some 0) mode).map (fun q => mul q multiple none)

/-- `split$(digits, mode)` via `#splitWith`: rescale a copy, and pair it with
`original − aligned`. -/
def split (a : Decimal) (digits : Option ℤ) (mode : RoundingMode) : Decimal × Decimal :=
  let aligned := rescaleCore a (digits.getD 0) mode
  (aligned, sub a aligned)

/-- `splitBy$(step, mode)` via `#splitWith`: align a copy with `roundBy$`, and
pair it with `original − aligned`. -/
def splitBy (a step : Decimal) (mode : RoundingMode) : Except DecErr (Decimal × Decimal) :=
  (roundBy a step mode).map (fun aligned => (aligned, sub a aligned))

/-- `pow$(exponent, digits)`: the zero-exponent and zero-base guards are
modelled exactly as in the source; the general path (binary exponentiation
plus the fractional part computed through iterated Newton roots, whose initial
guess goes through native floating point) is abstracted as `rest` — every
property proved below holds for an arbitrary `rest`. -/
def pow (rest : Decimal → Decimal → ℤ → Except DecErr Decimal)
    (base expVal : Decimal) (digits : ℤ) : Except DecErr Decimal :=
  let prec := ensureDigits digits
  if expVal.coeff = 0 then Except.ok ⟨1, 0⟩
  else if base.coeff = 0 then
    if expVal.coeff < 0 then Except.error DecErr.undefinedZeroNegativePower
    else Except.ok base
  else rest base expVal prec

/-- The recursion computing `abs(coeff).toString().length`, with fuel. -/
def numDigitsGo : ℕ → ℕ → ℕ
  | 0, _ => 1
  | fuel + 1, n => if n < 10 then 1 else numDigitsGo fuel (n / 10) + 1

/-- `abs(this.coeff).toString().length`: the decimal digit count of `n`. -/
def numDigits (n : ℕ) : ℕ := numDigitsGo n n

/-- `order()`: digit count of `|coeff|`, minus one, minus the scale. -/
def order (a : Decimal) : Except DecErr ℤ :=
  if a.coeff = 0 then Except.error DecErr.orderUndefinedForZero
  else Except.ok ((numDigits a.coeff.natAbs : ℤ) - 1 - a.digits)

/-- What it means, per the spec (§4.2), for the integer `k` to be the rational
`x` rounded in a given mode: `floor`/`ceil` bracket `x` from the proper side,
`trunc` rounds toward zero, and `round` picks a nearest integer with any exact
tie (distance exactly one half) resolved away from zero. -/
def RoundsTo (mode : RoundingMode) (x : ℚ) (k : ℤ) : Prop :=
  match mode with
  | RoundingMode.floor => (k : ℚ) ≤ x ∧ x < k + 1
  | RoundingMode.ceil => (k : ℚ) - 1 < x ∧ x ≤ k
  | RoundingMode.trunc =>
      (0 ≤ x ∧ (k : ℚ) ≤ x ∧ x < k + 1) ∨ (x ≤ 0 ∧ (k : ℚ) - 1 < x ∧ x ≤ k)
  | RoundingMode.round => 2 * |x - k| ≤ 1 ∧ (2 * |x - k| = 1 → |x| < |(k : ℚ)|)

/-- The digits of `n`, least significant first, with fuel (`n + 1` is enough,
since the argument shrinks by a factor of ten each step). -/
def digitsRev : ℕ → ℕ → List Char
  | 0, _ => []
  | fuel + 1, n => if n < 10 then [Nat.digitChar n] else Nat.digitChar (n % 10) :: digitsRev fuel (n / 10)

/-- The decimal text of a natural number, as JavaScript `toString` renders a
non-negative bigint. -/
def natToChars (n : ℕ) : List Char := (digitsRev (n + 1) n).reverse

/-- `String.prototype.padStart` with a single pad character. -/
def padStart (l : List Char) (len : ℕ) (c : Char) : List Char :=
  List.replicate (len - l.length) c ++ l

/-- `String.prototype.padEnd` with a single pad character. -/
def padEnd (l : List Char) (len : ℕ) (c : Char) : List Char :=
  l ++ List.replicate (len - l.length) c

/-- `toString()`: exponent-free rendering; a zero coefficient renders as `"0"`
or `"0.00…0"`, a non-positive scale appends `|digits|` zeros, and a positive
scale splits the zero-padded coefficient `digits` places from the end. -/
def toString (a : Decimal) : String :=
  if a.coeff = 0 then
    if a.digits ≤ 0 then "0"
    else String.mk ('0' :: '.' :: List.replicate a.digits.toNat '0')
  else
    let sign : List Char := if a.coeff < 0 then ['-'] else []
    let coeffDigits := natToChars a.coeff.natAbs
    if a.digits ≤ 0 then
      String.mk (sign ++ coeffDigits ++ List.replicate (-a.digits).toNat '0')
    else
      let decimals := a.digits.toNat
      let padded := padStart coeffDigits (decimals + 1) '0'
      let splitPos := padded.length - decimals
      let integerPart := padded.take splitPos
      let fractionPart := padEnd (padded.drop splitPos) decimals '0'
      String.mk (sign ++ integerPart ++ '.' :: fractionPart)

/-- The whitespace test used for `trim`; the source strings only ever carry
these four whitespace characters. -/
def isWhite (c : Char) : Bool := c == ' ' || c == '\t' || c == '\n' || c == '\r'

/-- `String.prototype.trim`. -/
def trimChars (l : List Char) : List Char :=
  ((l.dropWhile isWhite).reverse.dropWhile isWhite).reverse

/-- The value of a digit string, as `BigInt` reads one. -/
def digitsToNat (l : List Char) : ℕ := l.foldl (fun acc c => acc * 10 + (c.toNat - 48)) 0

/-- `parsePlainDecimal`: optional sign, integer part, optional `.` and
fraction; leading zeros of the combined digit string are dropped; a non-digit
in the combined string makes `BigInt` throw, modelled as `InvalidNumber`. -/
def parsePlainDecimal (input : List Char) : Except DecErr (ℤ × ℤ) :=
  if input.isEmpty then Except.error DecErr.invalidNumber
  else
    let sign : ℤ := if input.head? = some '-' then -1 else 1
    let str := if input.head? = some '-' ∨ input.head? = some '+' then input.tail else input
    if str.isEmpty then Except.error DecErr.invalidNumber
    else
      let intPart := str.takeWhile (fun c => c != '.')
      let fracPart := (str.dropWhile (fun c => c != '.')).tail
      let intPart2 := if intPart.isEmpty then ['0'] else intPart
      let combined := (intPart2 ++ fracPart).dropWhile (fun c => c == '0')
      let coeffStr := if combined.isEmpty then ['0'] else combined
      if coeffStr.all Char.isDigit then
        Except.ok (sign * (digitsToNat coeffStr : ℤ), (fracPart.length : ℤ))
      else Except.error DecErr.invalidNumber

/-- `BigInt(string)` on the exponent text: trims whitespace, accepts an
optional sign followed by decimal digits (the radix-prefixed literal forms
never reachable here are not modelled), and otherwise throws. -/
def parseBigInt (l : List Char) : Except DecErr ℤ :=
  let t := trimChars l
  if t.isEmpty then Except.ok 0
  else
    let sign : ℤ := if t.head? = some '-' then -1 else 1
    let digitsPart := if t.head? = some '-' ∨ t.head? = some '+' then t.tail else t
    if ¬ digitsPart.isEmpty ∧ digitsPart.all Char.isDigit then
      Except.ok (sign * (digitsToNat digitsPart : ℤ))
    else Except.error DecErr.invalidNumber

/-- `parseDecimalString`: split at the first `e`/`E`; an empty (after trim)
exponent part fails; otherwise the exponent is subtracted from the scale. -/
def parseDecimalString (value : List Char) : Except DecErr (ℤ × ℤ) :=
  let basePart := value.takeWhile (fun c => c != 'e' && c != 'E')
  let rest := value.dropWhile (fun c => c != 'e' && c != 'E')
  if rest.isEmpty then parsePlainDecimal value
  else
    let exponentPart := rest.tail
    if (trimChars exponentPart).isEmpty then Except.error DecErr.invalidNumber
    else
      (parsePlainDecimal basePart).bind (fun cd =>
        (parseBigInt exponentPart).map (fun adj => (cd.1, cd.2 - adj)))

/-- The `DecimalImpl` constructor on a string input: trim, reject the empty
string, then parse.  A native float input goes through the float's (shortest
round-trip) `toString` text and then this same path. -/
def ofString (s : String) : Except DecErr Decimal :=
  let trimmed := trimChars s.data
  if trimmed.isEmpty then Except.error DecErr.invalidNumber
  else (parseDecimalString trimmed).map (fun cd => ⟨cd.1, cd.2⟩)

end Decimal

namespace Decimal

/-- C10: for every decimal value `v` and every integer `d` with `v`'s scale at
most `d`, each of `round(d)`, `floor(d)`, `ceil(d)`, `trunc(d)` with the force
flag unset returns `v` itself — coefficient and scale both unchanged. -/
theorem c10_noop_rounding_when_coarse (v : Decimal) (d : ℤ) (h : v.digits ≤ d) :
    round v d false = v ∧ floor v d false = v ∧ ceil v d false = v ∧ trunc v d false = v := by
  refine ⟨?_, ?_, ?_, ?_⟩ <;> simp [round, floor, ceil, trunc, h]

/-- Witness for C10 at `v = 3.5`, `d = 2`. -/
theorem c10_noop_rounding_when_coarse_witness :
    round ⟨35, 1⟩ 2 false = ⟨35, 1⟩ ∧ floor ⟨35, 1⟩ 2 false = ⟨35, 1⟩ ∧
      ceil ⟨35, 1⟩ 2 false = ⟨35, 1⟩ ∧ trunc ⟨35, 1⟩ 2 false = ⟨35, 1⟩ :=
  c10_noop_rounding_when_coarse ⟨35, 1⟩ 2 (by decide)

/-- C8: for every base, digits setting, and tail computation `rest`, a zero
exponent makes `pow` return exactly `1` at scale `0`; a zero base with a
strictly negative exponent fails with `UndefinedZeroNegativePower`. -/
theorem c8_pow_zero_cases (rest : Decimal → Decimal → ℤ → Except DecErr Decimal)
    (base expVal : Decimal) (digits : ℤ) :
    (expVal.coeff = 0 → pow rest base expVal digits = Except.ok ⟨1, 0⟩) ∧
    (base.coeff = 0 → expVal.coeff < 0 →
      pow rest base expVal digits = Except.error DecErr.undefinedZeroNegativePower) := by
  constructor
  · intro h
    simp [pow, h]
  · intro hb he
    have hz : ¬ expVal.coeff = 0 := by omega
    simp [pow, hz, hb, he]

/-- Witness for C8: `5.pow(0.00)` and `0.pow(-1)`. -/
theorem c8_pow_zero_cases_witness :
    pow (fun b _ _ => Except.ok b) ⟨5, 0⟩ ⟨0, 2⟩ 18 = Except.ok ⟨1, 0⟩ ∧
    pow (fun b _ _ => Except.ok b) ⟨0, 0⟩ ⟨-1, 0⟩ 18 =
      Except.error DecErr.undefinedZeroNegativePower :=
  ⟨(c8_pow_zero_cases (fun b _ _ => Except.ok b) ⟨5, 0⟩ ⟨0, 2⟩ 18).1 (by decide),
   (c8_pow_zero_cases (fun b _ _ => Except.ok b) ⟨0, 0⟩ ⟨-1, 0⟩ 18).2 (by decide) (by decide)⟩

/-- C7 (failing input): `Decimal({coeff: 0n, digits: 5n}).rescale()` — the code
returns the zero-valued input unchanged at scale 5, so the scale does NOT
collapse to 0 as the claim (and the repository's own test
"compresses zero to standard form with rescale") requires. -/
theorem c7_zero_rescale_keeps_scale :
    rescale ⟨0, 5⟩ none RoundingMode.trunc = ⟨0, 5⟩ ∧
      (rescale ⟨0, 5⟩ none RoundingMode.trunc).digits = 5 := by
  exact ⟨by decide, by decide⟩

/-- C5: `div` fails with `DivisionByZero` exactly when the divisor is
zero-valued (also for a zero dividend, since the divisor check precedes the
zero-dividend shortcut); `mod` likewise; `inverse` fails exactly on a
zero-valued receiver. -/
theorem c5_division_by_zero_iff :
    (∀ (a b : Decimal) (digits : Option ℤ) (mode : RoundingMode),
        div a b digits mode = Except.error DecErr.divisionByZero ↔ b.coeff = 0) ∧
    (∀ a b : Decimal, mod a b = Except.error DecErr.divisionByZero ↔ b.coeff = 0) ∧
    (∀ (a : Decimal) (digits : ℤ),
        inverse a digits = Except.error DecErr.divisionByZero ↔ a.coeff = 0) := by
  refine ⟨fun a b digits mode => ?_, fun a b => ?_, fun a digits => ?_⟩
  · constructor
    · intro h
      by_contra hb
      by_cases ha : a.coeff = 0 <;> simp [div, hb, ha] at h
    · intro hb
      simp [div, hb]
  · constructor
    · intro h
      by_contra hb
      simp [mod, hb] at h
    · intro hb
      simp [mod, hb]
  · constructor
    · intro h
      by_contra ha
      simp [inverse, ha, div] at h
    · intro ha
      simp [inverse, ha]

end Decimal
namespace Decimal

theorem pow10n_pos (n : ℤ) : 0 < pow10n n := pow_pos (by norm_num) _

theorem pow10n_cast (n : ℤ) (h : 0 ≤ n) : ((pow10n n : ℤ) : ℚ) = (10 : ℚ) ^ n := by
  unfold pow10n
  push_cast
  rw [← zpow_natCast (10 : ℚ) n.toNat, Int.toNat_of_nonneg h]

theorem val_scale (c dd D : ℤ) (h : dd ≤ D) :
    ((c : ℚ) * ((pow10n (D - dd) : ℤ) : ℚ)) * (10 : ℚ) ^ (-D) = (c : ℚ) * (10 : ℚ) ^ (-dd) := by
  rw [pow10n_cast (D - dd) (by omega), mul_assoc,
    ← zpow_add₀ (by norm_num : (10 : ℚ) ≠ 0) (D - dd) (-D)]
  have he : D - dd + -D = -dd := by ring
  rw [he]

theorem val_eq_alignA (a b : Decimal) :
    val a = ((alignA a b : ℤ) : ℚ) * (10 : ℚ) ^ (-(alignDigits a b)) := by
  unfold val alignA
  push_cast
  rw [val_scale a.coeff a.digits (alignDigits a b) (le_max_left _ _)]

theorem val_eq_alignB (a b : Decimal) :
    val b = ((alignB a b : ℤ) : ℚ) * (10 : ℚ) ^ (-(alignDigits a b)) := by
  unfold val alignB
  push_cast
  rw [val_scale b.coeff b.digits (alignDigits a b) (le_max_right _ _)]

theorem val_add (a b : Decimal) : val (add a b) = val a + val b := by
  rw [val_eq_alignA a b, val_eq_alignB a b]
  unfold val add
  push_cast
  ring

theorem val_sub (a b : Decimal) : val (sub a b) = val a - val b := by
  rw [val_eq_alignA a b, val_eq_alignB a b]
  unfold val sub
  push_cast
  ring

theorem eq_true_iff_val (a b : Decimal) : eq a b = true ↔ val a = val b := by
  unfold eq cmp
  rw [decide_eq_true_iff]
  constructor
  · intro h
    have hab : alignA a b = alignB a b := by
      by_contra hne
      simp [hne] at h
      split at h <;> omega
    rw [val_eq_alignA a b, val_eq_alignB a b, hab]
  · intro h
    have hab : alignA a b = alignB a b := by
      rw [val_eq_alignA a b, val_eq_alignB a b] at h
      have hz : ((10 : ℚ) ^ (-(alignDigits a b)) : ℚ) ≠ 0 :=
        zpow_ne_zero _ (by norm_num)
      have := mul_right_cancel₀ hz h
      exact_mod_cast this
    simp [hab]

theorem eq_add_sub_self (v al : Decimal) : eq (add al (sub v al)) v = true := by
  rw [eq_true_iff_val, val_add, val_sub]
  ring

end Decimal
namespace Decimal

/-- C2: `add`/`sub` align both operands to the larger scale (multiplying the
coarser coefficient by the needed power of ten), add or subtract the aligned
coefficients, keep the larger scale, and are exact on values; consequently
`Decimal(a).add(b).sub(b).eq(a)` holds for all decimal values `a`, `b`. -/
theorem c2_add_sub_exact :
    (∀ a b : Decimal,
        add a b = ⟨a.coeff * pow10n (max a.digits b.digits - a.digits) +
          b.coeff * pow10n (max a.digits b.digits - b.digits), max a.digits b.digits⟩) ∧
    (∀ a b : Decimal,
        sub a b = ⟨a.coeff * pow10n (max a.digits b.digits - a.digits) -
          b.coeff * pow10n (max a.digits b.digits - b.digits), max a.digits b.digits⟩) ∧
    (∀ a b : Decimal, val (add a b) = val a + val b) ∧
    (∀ a b : Decimal, val (sub a b) = val a - val b) ∧
    (∀ a b : Decimal, eq (sub (add a b) b) a = true) := by
  refine ⟨fun a b => rfl, fun a b => rfl, val_add, val_sub, fun a b => ?_⟩
  rw [eq_true_iff_val, val_sub, val_add]
  ring

/-- C4: both `split(digits, mode)` and `splitBy(step, mode)` (the latter for
any step with nonzero coefficient) return an `(aligned, remainder)` pair whose
exact sum equals the original value, for every rounding mode. -/
theorem c4_split_reassembly :
    (∀ (v : Decimal) (digits : Option ℤ) (mode : RoundingMode),
        eq (add (split v digits mode).1 (split v digits mode).2) v = true) ∧
    (∀ (v s : Decimal) (mode : RoundingMode), s.coeff ≠ 0 →
        ∃ aligned remainder, splitBy v s mode = Except.ok (aligned, remainder) ∧
          eq (add aligned remainder) v = true) := by
  constructor
  · intro v digits mode
    exact eq_add_sub_self v _
  · intro v s mode hs
    have hm : (abs s).coeff ≠ 0 := by
      unfold abs
      split <;> simpa
    have hdiv : ∃ q, div v (abs s) (some 0) mode = Except.ok q := by
      by_cases hv : v.coeff = 0
      · exact ⟨v, by simp [div, hm, hv]⟩
      · exact ⟨divCore v (abs s) (ensureDigits 0) mode, by simp [div, hm, hv]⟩
    obtain ⟨q, hq⟩ := hdiv
    refine ⟨mul q (abs s) none, sub v (mul q (abs s) none), ?_, eq_add_sub_self v _⟩
    simp [splitBy, roundBy, hm, hq, Except.map]

/-- Witness for C4 at `v = 12.345`, `s = 0.5`, floor mode. -/
theorem c4_split_reassembly_witness :
    ∃ aligned remainder,
      splitBy ⟨12345, 3⟩ ⟨5, 1⟩ RoundingMode.floor = Except.ok (aligned, remainder) ∧
        eq (add aligned remainder) ⟨12345, 3⟩ = true :=
  c4_split_reassembly.2 ⟨12345, 3⟩ ⟨5, 1⟩ RoundingMode.floor (by decide)

end Decimal
namespace Decimal

theorem tmod_neg_left (a b : ℤ) : (-a).tmod b = -(a.tmod b) := by
  have h1 := Int.tdiv_add_tmod a b
  have h2 := Int.tdiv_add_tmod (-a) b
  rw [Int.neg_tdiv] at h2
  linarith

theorem tmod_bounds_of_neg (num den : ℤ) (hden : 0 < den) (hnum : num < 0) :
    -den < num.tmod den ∧ num.tmod den ≤ 0 := by
  have h1 : 0 ≤ (-num).tmod den := Int.tmod_nonneg den (by omega)
  have h2 : (-num).tmod den < den := Int.tmod_lt_of_pos (-num) hden
  rw [tmod_neg_left] at h1 h2
  omega

theorem adjustQuotient_remainder (num den : ℤ) :
    num - num.tdiv den * den = num.tmod den := by
  have := Int.tdiv_add_tmod num den
  linarith

theorem adjustQuotient_floor_bounds (num den : ℤ) (hden : 0 < den) :
    adjustQuotient num den RoundingMode.floor * den ≤ num ∧
      num < (adjustQuotient num den RoundingMode.floor + 1) * den := by
  have hsum := Int.tdiv_add_tmod num den
  have hrem := adjustQuotient_remainder num den
  simp only [adjustQuotient, hrem]
  by_cases hr : num.tmod den = 0
  · simp only [hr]
    norm_num
    constructor <;> nlinarith
  · have hcond : (num.tmod den ≠ 0 ∧ RoundingMode.floor ≠ RoundingMode.trunc) := ⟨hr, by decide⟩
    simp only [if_pos hcond]
    by_cases hn : 0 ≤ num
    · have h1 : 0 ≤ num.tmod den := Int.tmod_nonneg den hn
      have h2 : num.tmod den < den := Int.tmod_lt_of_pos num hden
      simp only [if_pos hn]
      constructor <;> nlinarith
    · obtain ⟨h1, h2⟩ := tmod_bounds_of_neg num den hden (by omega)
      have hrlt : num.tmod den < 0 := by omega
      simp only [if_neg hn]
      constructor <;> nlinarith

theorem adjustQuotient_ceil_bounds (num den : ℤ) (hden : 0 < den) :
    (adjustQuotient num den RoundingMode.ceil - 1) * den < num ∧
      num ≤ adjustQuotient num den RoundingMode.ceil * den := by
  have hsum := Int.tdiv_add_tmod num den
  have hrem := adjustQuotient_remainder num den
  simp only [adjustQuotient, hrem]
  by_cases hr : num.tmod den = 0
  · simp only [hr]
    norm_num
    constructor <;> nlinarith
  · have hcond : (num.tmod den ≠ 0 ∧ RoundingMode.ceil ≠ RoundingMode.trunc) := ⟨hr, by decide⟩
    simp only [if_pos hcond]
    by_cases hn : 0 ≤ num
    · have h1 : 0 ≤ num.tmod den := Int.tmod_nonneg den hn
      have h2 : num.tmod den < den := Int.tmod_lt_of_pos num hden
      have hrpos : 0 < num.tmod den := by omega
      simp only [if_pos hn]
      constructor <;> nlinarith
    · obtain ⟨h1, h2⟩ := tmod_bounds_of_neg num den hden (by omega)
      simp only [if_neg hn]
      constructor <;> nlinarith

theorem adjustQuotient_trunc_bounds (num den : ℤ) (hden : 0 < den) :
    (0 ≤ num ∧ adjustQuotient num den RoundingMode.trunc * den ≤ num ∧
        num < (adjustQuotient num den RoundingMode.trunc + 1) * den) ∨
      (num ≤ 0 ∧ (adjustQuotient num den RoundingMode.trunc - 1) * den < num ∧
        num ≤ adjustQuotient num den RoundingMode.trunc * den) := by
  have hsum := Int.tdiv_add_tmod num den
  have hrem := adjustQuotient_remainder num den
  have hq : adjustQuotient num den RoundingMode.trunc = num.tdiv den := by
    simp only [adjustQuotient, hrem]
    split
    · rfl
    · rfl
  rw [hq]
  by_cases hn : 0 ≤ num
  · have h1 : 0 ≤ num.tmod den := Int.tmod_nonneg den hn
    have h2 : num.tmod den < den := Int.tmod_lt_of_pos num hden
    left
    refine ⟨hn, by nlinarith, by nlinarith⟩
  · obtain ⟨h1, h2⟩ := tmod_bounds_of_neg num den hden (by omega)
    right
    refine ⟨by omega, by nlinarith, by nlinarith⟩

theorem adjustQuotient_round_bounds (num den : ℤ) (hden : 0 < den) :
    2 * |num - adjustQuotient num den RoundingMode.round * den| ≤ den ∧
      (2 * |num - adjustQuotient num den RoundingMode.round * den| = den →
        |num| < |adjustQuotient num den RoundingMode.round * den|) := by
  have hsum := Int.tdiv_add_tmod num den
  have hrem := adjustQuotient_remainder num den
  have hthr : (if den < 0 then -den else den) = den := by omega
  simp only [adjustQuotient, hrem, hthr]
  by_cases hr : num.tmod den = 0
  · simp only [hr]
    norm_num
    have : num - num.tdiv den * den = 0 := by omega
    rw [this]
    simp
    omega
  · have hcond : (num.tmod den ≠ 0 ∧ RoundingMode.round ≠ RoundingMode.trunc) := ⟨hr, by decide⟩
    simp only [if_pos hcond]
    by_cases hn : 0 ≤ num
    · have h1 : 0 ≤ num.tmod den := Int.tmod_nonneg den hn
      have h2 : num.tmod den < den := Int.tmod_lt_of_pos num hden
      have habs : |num.tmod den| = num.tmod den := abs_of_nonneg h1
      rw [habs]
      by_cases hhalf : den ≤ num.tmod den * 2
      · simp only [if_pos hhalf, if_pos hn]
        have hd : num - (num.tdiv den + 1) * den = num.tmod den - den := by nlinarith
        rw [hd, abs_of_nonpos (by omega)]
        constructor
        · omega
        · intro htie
          have hkd : (num.tdiv den + 1) * den = num + (den - num.tmod den) := by nlinarith
          rw [hkd, abs_of_nonneg hn, abs_of_nonneg (by omega)]
          omega
      · simp only [if_neg hhalf]
        have hd : num - num.tdiv den * den = num.tmod den := by omega
        rw [hd, abs_of_nonneg h1]
        omega
    · obtain ⟨h1, h2⟩ := tmod_bounds_of_neg num den hden (by omega)
      have habs : |num.tmod den| = -num.tmod den := abs_of_nonpos h2
      rw [habs]
      by_cases hhalf : den ≤ -num.tmod den * 2
      · simp only [if_pos hhalf, if_neg hn]
        have hd : num - (num.tdiv den - 1) * den = num.tmod den + den := by nlinarith
        rw [hd, abs_of_nonneg (by omega)]
        constructor
        · omega
        · intro htie
          have hkd : (num.tdiv den - 1) * den = num - (num.tmod den + den) := by nlinarith
          rw [hkd, abs_of_neg (by omega), abs_of_neg (by omega)]
          omega
      · simp only [if_neg hhalf]
        have hd : num - num.tdiv den * den = num.tmod den := by omega
        rw [hd, abs_of_nonpos h2]
        omega

end Decimal
namespace Decimal

theorem roundsTo_adjustQuotient (num den : ℤ) (hden : 0 < den) (mode : RoundingMode) :
    RoundsTo mode ((num : ℚ) / (den : ℚ)) (adjustQuotient num den mode) := by
  have hden' : (0 : ℚ) < (den : ℚ) := by exact_mod_cast hden
  cases mode with
  | floor =>
      obtain ⟨h1, h2⟩ := adjustQuotient_floor_bounds num den hden
      refine ⟨?_, ?_⟩
      · rw [le_div_iff₀ hden']
        exact_mod_cast h1
      · rw [div_lt_iff₀ hden']
        exact_mod_cast h2
  | ceil =>
      obtain ⟨h1, h2⟩ := adjustQuotient_ceil_bounds num den hden
      refine ⟨?_, ?_⟩
      · rw [lt_div_iff₀ hden']
        exact_mod_cast h1
      · rw [div_le_iff₀ hden']
        exact_mod_cast h2
  | trunc =>
      rcases adjustQuotient_trunc_bounds num den hden with ⟨hn, h1, h2⟩ | ⟨hn, h1, h2⟩
      · left
        refine ⟨?_, ?_, ?_⟩
        · exact div_nonneg (by exact_mod_cast hn) (le_of_lt hden')
        · rw [le_div_iff₀ hden']
          exact_mod_cast h1
        · rw [div_lt_iff₀ hden']
          exact_mod_cast h2
      · right
        refine ⟨?_, ?_, ?_⟩
        · exact div_nonpos_of_nonpos_of_nonneg (by exact_mod_cast hn) (le_of_lt hden')
        · rw [lt_div_iff₀ hden']
          exact_mod_cast h1
        · rw [div_le_iff₀ hden']
          exact_mod_cast h2
  | round =>
      obtain ⟨h1, h2⟩ := adjustQuotient_round_bounds num den hden
      set k := adjustQuotient num den RoundingMode.round with hk
      have hsub : (num : ℚ) / (den : ℚ) - (k : ℚ) = ((num - k * den : ℤ) : ℚ) / (den : ℚ) := by
        push_cast
        field_simp
        ring
      have habs : |(num : ℚ) / (den : ℚ) - (k : ℚ)| =
          ((|num - k * den| : ℤ) : ℚ) / (den : ℚ) := by
        rw [hsub, abs_div, abs_of_pos hden']
        push_cast
        rfl
      refine ⟨?_, ?_⟩
      · rw [habs, ← mul_div_assoc, div_le_one hden']
        exact_mod_cast h1
      · intro ht
        rw [habs, ← mul_div_assoc, div_eq_one_iff_eq (ne_of_gt hden')] at ht
        have htie : 2 * |num - k * den| = den := by exact_mod_cast ht
        have hlt : |num| < |k * den| := h2 htie
        have hnum : |(num : ℚ) / (den : ℚ)| = ((|num| : ℤ) : ℚ) / (den : ℚ) := by
          rw [abs_div, abs_of_pos hden']
          push_cast
          rfl
        have hkq : |(k : ℚ)| = ((|k * den| : ℤ) : ℚ) / (den : ℚ) := by
          push_cast
          rw [abs_mul, abs_of_pos hden']
          field_simp
        rw [hnum, hkq]
        have hlt2 : ((|num| : ℤ) : ℚ) < ((|k * den| : ℤ) : ℚ) := by exact_mod_cast hlt
        exact div_lt_div_of_pos_right hlt2 hden'

end Decimal
namespace Decimal

theorem val_ne_zero (b : Decimal) (hb : b.coeff ≠ 0) : val b ≠ 0 := by
  unfold val
  exact mul_ne_zero (Int.cast_ne_zero.mpr hb) (zpow_ne_zero _ (by norm_num))

theorem val_quot_shift_nonneg (a b : Decimal) (d : ℤ)
    (hs : 0 ≤ b.digits + d - a.digits) (hb : b.coeff ≠ 0) :
    val a / val b * (10 : ℚ) ^ d =
      ((a.coeff * pow10n (b.digits + d - a.digits) : ℤ) : ℚ) / ((b.coeff : ℤ) : ℚ) := by
  have h10 : (10 : ℚ) ≠ 0 := by norm_num
  have hvb : val b ≠ 0 := val_ne_zero b hb
  have hbq : ((b.coeff : ℤ) : ℚ) ≠ 0 := Int.cast_ne_zero.mpr hb
  rw [div_mul_eq_mul_div, div_eq_div_iff hvb hbq]
  unfold val
  push_cast [pow10n_cast (b.digits + d - a.digits) hs]
  have key : (10 : ℚ) ^ (-a.digits) * (10 : ℚ) ^ d =
      (10 : ℚ) ^ (b.digits + d - a.digits) * (10 : ℚ) ^ (-b.digits) := by
    rw [← zpow_add₀ h10, ← zpow_add₀ h10]
    have he : -a.digits + d = b.digits + d - a.digits + -b.digits := by ring
    rw [he]
  linear_combination ((a.coeff : ℚ) * (b.coeff : ℚ)) * key

theorem val_quot_shift_neg (a b : Decimal) (d : ℤ)
    (hs : ¬ 0 ≤ b.digits + d - a.digits) (hb : b.coeff ≠ 0) :
    val a / val b * (10 : ℚ) ^ d =
      ((a.coeff : ℤ) : ℚ) / ((b.coeff * pow10n (-(b.digits + d - a.digits)) : ℤ) : ℚ) := by
  have h10 : (10 : ℚ) ≠ 0 := by norm_num
  have hvb : val b ≠ 0 := val_ne_zero b hb
  have hden : ((b.coeff * pow10n (-(b.digits + d - a.digits)) : ℤ) : ℚ) ≠ 0 := by
    push_cast
    exact mul_ne_zero (Int.cast_ne_zero.mpr hb)
      (by exact_mod_cast ne_of_gt (pow10n_pos (-(b.digits + d - a.digits))))
  rw [div_mul_eq_mul_div, div_eq_div_iff hvb hden]
  unfold val
  push_cast [pow10n_cast (-(b.digits + d - a.digits)) (by omega)]
  have key : (10 : ℚ) ^ (-a.digits) * (10 : ℚ) ^ d * (10 : ℚ) ^ (-(b.digits + d - a.digits)) =
      (10 : ℚ) ^ (-b.digits) := by
    rw [← zpow_add₀ h10, ← zpow_add₀ h10]
    have he : -a.digits + d + -(b.digits + d - a.digits) = -b.digits := by ring
    rw [he]
  linear_combination ((a.coeff : ℚ) * (b.coeff : ℚ)) * key

theorem divCore_denominator_pos (a b : Decimal) (d : ℤ) (hb : 0 < b.coeff) :
    0 < (if 0 ≤ b.digits + d - a.digits then b.coeff
      else b.coeff * pow10n (-(b.digits + d - a.digits))) := by
  split
  · exact hb
  · exact mul_pos hb (pow10n_pos _)

theorem divCore_roundsTo (a b : Decimal) (d : ℤ) (mode : RoundingMode) (hb : 0 < b.coeff) :
    RoundsTo mode (val a / val b * (10 : ℚ) ^ d) (divCore a b d mode).coeff := by
  by_cases hs : 0 ≤ b.digits + d - a.digits
  · have hcoeff : (divCore a b d mode).coeff =
        adjustQuotient (a.coeff * pow10n (b.digits + d - a.digits)) b.coeff mode := by
      simp [divCore, hs]
    rw [hcoeff, val_quot_shift_nonneg a b d hs (by omega)]
    exact roundsTo_adjustQuotient _ _ hb mode
  · have hcoeff : (divCore a b d mode).coeff =
        adjustQuotient a.coeff (b.coeff * pow10n (-(b.digits + d - a.digits))) mode := by
      simp [divCore, hs]
    rw [hcoeff, val_quot_shift_neg a b d hs (by omega)]
    exact roundsTo_adjustQuotient _ _ (mul_pos hb (pow10n_pos _)) mode

end Decimal
namespace Decimal

theorem half_away_val (v : Decimal) (d k : ℤ)
    (h : RoundsTo RoundingMode.round (val v * (10 : ℚ) ^ d) k) :
    2 * |val v - val ⟨k, d⟩| ≤ (10 : ℚ) ^ (-d) ∧
      (2 * |val v - val ⟨k, d⟩| = (10 : ℚ) ^ (-d) → |val v| < |val ⟨k, d⟩|) := by
  obtain ⟨h1, h2⟩ := h
  have ht : (0 : ℚ) < (10 : ℚ) ^ (-d) := zpow_pos (by norm_num) _
  have hcancel : (10 : ℚ) ^ d * (10 : ℚ) ^ (-d) = 1 := by
    rw [← zpow_add₀ (by norm_num : (10 : ℚ) ≠ 0)]
    simp
  have hvk : val (⟨k, d⟩ : Decimal) = (k : ℚ) * (10 : ℚ) ^ (-d) := rfl
  have hdiff : val v - val ⟨k, d⟩ = (val v * (10 : ℚ) ^ d - k) * (10 : ℚ) ^ (-d) := by
    rw [hvk]
    linear_combination (-(val v)) * hcancel
  have habs : |val v - val ⟨k, d⟩| = |val v * (10 : ℚ) ^ d - k| * (10 : ℚ) ^ (-d) := by
    rw [hdiff, abs_mul, abs_of_pos ht]
  refine ⟨?_, ?_⟩
  · rw [habs]
    nlinarith [ht, h1]
  · intro htie
    rw [habs] at htie
    have h2A : 2 * |val v * (10 : ℚ) ^ d - k| = 1 := by
      have hmul : (2 * |val v * (10 : ℚ) ^ d - k|) * (10 : ℚ) ^ (-d) =
          1 * (10 : ℚ) ^ (-d) := by linarith [htie]
      exact mul_right_cancel₀ (ne_of_gt ht) hmul
    have hlt := h2 h2A
    have hv2 : |val v| = |val v * (10 : ℚ) ^ d| * (10 : ℚ) ^ (-d) := by
      rw [← abs_of_pos ht, ← abs_mul, mul_assoc, hcancel, mul_one]
    have hr2 : |val ⟨k, d⟩| = |(k : ℚ)| * (10 : ℚ) ^ (-d) := by
      rw [hvk, abs_mul, abs_of_pos ht]
    rw [hv2, hr2]
    exact mul_lt_mul_of_pos_right hlt ht

end Decimal
namespace Decimal

/-- C1: rounding is half-away-from-zero.  For every decimal value `v` and
digit count `d ≥ 0`, `round(d)` yields a multiple of `10^-d` within half an
ulp of `v`, and an exact tie is resolved to the side farther from zero;
`Decimal(3.5).round().eq(4)`, `Decimal(-3.5).round().eq(-4)`, and
`Decimal("12.345").mul(3).round(2).toString() === "37.04"` (the floats `3.5`
and `-3.5` reach the constructor as their round-trip strings). -/
theorem c1_round_half_away_from_zero :
    (∀ (v : Decimal) (d : ℕ),
        (∃ k : ℤ, val (round v (d : ℤ) false) = (k : ℚ) * (10 : ℚ) ^ (-(d : ℤ))) ∧
        2 * |val v - val (round v (d : ℤ) false)| ≤ (10 : ℚ) ^ (-(d : ℤ)) ∧
        (2 * |val v - val (round v (d : ℤ) false)| = (10 : ℚ) ^ (-(d : ℤ)) →
          |val v| < |val (round v (d : ℤ) false)|)) ∧
    ofString "3.5" = Except.ok ⟨35, 1⟩ ∧ eq (round ⟨35, 1⟩ 0 false) ⟨4, 0⟩ = true ∧
    ofString "-3.5" = Except.ok ⟨-35, 1⟩ ∧ eq (round ⟨-35, 1⟩ 0 false) ⟨-4, 0⟩ = true ∧
    ofString "12.345" = Except.ok ⟨12345, 3⟩ ∧
    toString (round (mul ⟨12345, 3⟩ ⟨3, 0⟩ none) 2 false) = "37.04" := by
  refine ⟨?_, by decide, by decide, by decide, by decide, by decide, by decide⟩
  intro v d
  have ht : (0 : ℚ) < (10 : ℚ) ^ (-(d : ℤ)) := zpow_pos (by norm_num) _
  by_cases hcase : v.digits ≤ (d : ℤ)
  · have hr : round v (d : ℤ) false = v := by simp [round, hcase]
    rw [hr]
    refine ⟨⟨v.coeff * 10 ^ ((d : ℤ) - v.digits).toNat, ?_⟩, ?_, ?_⟩
    · have hs := val_scale v.coeff v.digits (d : ℤ) hcase
      unfold val
      rw [← hs]
      push_cast [pow10n]
      ring
    · rw [sub_self, abs_zero, mul_zero]
      exact le_of_lt ht
    · intro h
      rw [sub_self, abs_zero, mul_zero] at h
      exact absurd h.symm (ne_of_gt ht)
  · have hr : round v (d : ℤ) false = rescaleCore v (d : ℤ) RoundingMode.round := by
      rw [round, if_neg]
      intro h
      exact (by omega : ¬ v.digits ≤ (d : ℤ)) h.2
    by_cases hz : v.coeff = 0
    · have hval : val v = 0 := by
        unfold val
        rw [hz]
        simp
      have hr2 : rescaleCore v (d : ℤ) RoundingMode.round = ⟨0, (d : ℤ)⟩ := by
        simp [rescaleCore, hz]
      have hvr : val (⟨0, (d : ℤ)⟩ : Decimal) = 0 := by
        unfold val
        simp
      rw [hr, hr2]
      refine ⟨⟨0, by rw [hvr]; simp⟩, ?_, ?_⟩
      · rw [hval, hvr, sub_self, abs_zero, mul_zero]
        exact le_of_lt ht
      · intro h
        rw [hval, hvr, sub_self, abs_zero, mul_zero] at h
        exact absurd h.symm (ne_of_gt ht)
    · have h1 : ¬ ((d : ℤ) = v.digits) := by omega
      have h2 : ¬ (v.digits < (d : ℤ)) := by omega
      have hr2 : rescaleCore v (d : ℤ) RoundingMode.round =
          divCore v ⟨1, 0⟩ (d : ℤ) RoundingMode.round := by
        simp [rescaleCore, hz, h1, h2]
      have hround := divCore_roundsTo v ⟨1, 0⟩ (d : ℤ) RoundingMode.round (by norm_num)
      have hone : val (⟨1, 0⟩ : Decimal) = 1 := by
        unfold val
        simp
      rw [hone, div_one] at hround
      have hstruct : divCore v ⟨1, 0⟩ (d : ℤ) RoundingMode.round =
          ⟨(divCore v ⟨1, 0⟩ (d : ℤ) RoundingMode.round).coeff, (d : ℤ)⟩ := rfl
      obtain ⟨hle, htie⟩ :=
        half_away_val v (d : ℤ) (divCore v ⟨1, 0⟩ (d : ℤ) RoundingMode.round).coeff hround
      rw [hr, hr2, hstruct]
      exact ⟨⟨(divCore v ⟨1, 0⟩ (d : ℤ) RoundingMode.round).coeff, rfl⟩, hle, htie⟩

/-- Witness for C1 at the tie `v = 3.5`, `d = 0`: the tie hypothesis holds and
the result `4` is farther from zero than `3.5`. -/
theorem c1_round_half_away_from_zero_witness :
    |val ⟨35, 1⟩| < |val (round ⟨35, 1⟩ ((0 : ℕ) : ℤ) false)| :=
  (c1_round_half_away_from_zero.1 ⟨35, 1⟩ 0).2.2 (by
    have h : round ⟨35, 1⟩ ((0 : ℕ) : ℤ) false = ⟨4, 0⟩ := by decide
    rw [h]
    norm_num [val, abs_of_pos])

end Decimal
namespace Decimal

/-- C3 (amended): for a nonzero dividend and nonzero divisor, `div` with an
explicit digit count `d ≥ 0` returns `#div$`'s result, whose scale is exactly
`d`; when the divisor is moreover positive, that result's coefficient is the
exact quotient scaled by `10^d` and rounded in the requested mode (for a
negative divisor the adjustment keys on the dividend's sign and can leave the
wrong-side value, see the counterexample); `Decimal(1).div(3, 5n).toString()`
is `"0.33333"`; a zero dividend with a nonzero divisor returns the dividend
unchanged (zero, scale preserved). -/
theorem c3_div_digit_contract :
    (∀ (a b : Decimal) (d : ℕ) (mode : RoundingMode), a.coeff ≠ 0 → b.coeff ≠ 0 →
        div a b (some (d : ℤ)) mode = Except.ok (divCore a b (d : ℤ) mode) ∧
          (divCore a b (d : ℤ) mode).digits = (d : ℤ)) ∧
    (∀ (a b : Decimal) (d : ℕ) (mode : RoundingMode), a.coeff ≠ 0 → 0 < b.coeff →
        RoundsTo mode (val a / val b * (10 : ℚ) ^ (d : ℤ)) (divCore a b (d : ℤ) mode).coeff) ∧
    ((div ⟨1, 0⟩ ⟨3, 0⟩ (some 5) RoundingMode.round).map toString = Except.ok "0.33333") ∧
    (∀ (a b : Decimal) (dg : Option ℤ) (mode : RoundingMode), a.coeff = 0 → b.coeff ≠ 0 →
        div a b dg mode = Except.ok a) := by
  refine ⟨?_, ?_, by decide, ?_⟩
  · intro a b d mode ha hb
    have hd : ¬ ((d : ℤ) < 0) := by omega
    exact ⟨by simp [div, ha, hb, ensureDigits, hd], rfl⟩
  · intro a b d mode ha hb
    exact divCore_roundsTo a b (d : ℤ) mode hb
  · intro a b dg mode ha hb
    simp [div, hb, ha]

/-- Witness for C3 at `1 / 3` with 5 digits (and `0.0000 / 5` for the
zero-dividend clause). -/
theorem c3_div_digit_contract_witness :
    div ⟨1, 0⟩ ⟨3, 0⟩ (some ((5 : ℕ) : ℤ)) RoundingMode.round =
        Except.ok (divCore ⟨1, 0⟩ ⟨3, 0⟩ ((5 : ℕ) : ℤ) RoundingMode.round) ∧
      RoundsTo RoundingMode.round
        (val ⟨1, 0⟩ / val ⟨3, 0⟩ * (10 : ℚ) ^ ((5 : ℕ) : ℤ))
        (divCore ⟨1, 0⟩ ⟨3, 0⟩ ((5 : ℕ) : ℤ) RoundingMode.round).coeff ∧
      div ⟨0, 4⟩ ⟨5, 0⟩ (some 0) RoundingMode.round = Except.ok ⟨0, 4⟩ :=
  ⟨(c3_div_digit_contract.1 ⟨1, 0⟩ ⟨3, 0⟩ 5 RoundingMode.round (by decide) (by decide)).1,
   c3_div_digit_contract.2.1 ⟨1, 0⟩ ⟨3, 0⟩ 5 RoundingMode.round (by decide) (by decide),
   c3_div_digit_contract.2.2.2 ⟨0, 4⟩ ⟨5, 0⟩ (some 0) RoundingMode.round (by decide) (by decide)⟩

/-- C3 counterexample: `Decimal(1).div(-2, 0n)` (default mode `'round'`).  The
exact quotient is `-0.5`, whose half-away-from-zero rounding is `-1`, but the
code returns `+1`: the adjustment direction follows the dividend's sign, not
the quotient's. -/
theorem c3_negative_divisor_misrounds :
    div ⟨1, 0⟩ ⟨-2, 0⟩ (some 0) RoundingMode.round = Except.ok ⟨1, 0⟩ ∧
      ¬ RoundsTo RoundingMode.round
        (val ⟨1, 0⟩ / val ⟨-2, 0⟩ * (10 : ℚ) ^ ((0 : ℕ) : ℤ)) 1 := by
  refine ⟨by decide, ?_⟩
  intro h
  have h1 := h.1
  norm_num [val] at h1
  rw [abs_of_pos (by norm_num : (0 : ℚ) < 3 / 2)] at h1
  norm_num at h1

end Decimal
namespace Decimal

theorem numDigitsGo_pos (fuel n : ℕ) : 1 ≤ numDigitsGo fuel n := by
  cases fuel with
  | zero => simp [numDigitsGo]
  | succ f =>
      simp only [numDigitsGo]
      split
      · omega
      · omega

theorem numDigitsGo_bounds (fuel : ℕ) : ∀ n : ℕ, 1 ≤ n → n ≤ fuel →
    10 ^ (numDigitsGo fuel n - 1) ≤ n ∧ n < 10 ^ numDigitsGo fuel n := by
  induction fuel with
  | zero => intro n h1 h2; omega
  | succ fuel ih =>
      intro n h1 h2
      by_cases hn : n < 10
      · simp only [numDigitsGo, if_pos hn]
        constructor
        · simpa using h1
        · simpa using hn
      · have hrec : numDigitsGo (fuel + 1) n = numDigitsGo fuel (n / 10) + 1 := by
          simp [numDigitsGo, hn]
        have hd1 : 1 ≤ n / 10 := by omega
        have hd2 : n / 10 ≤ fuel := by
          have := Nat.div_lt_self (by omega : 0 < n) (by norm_num : 1 < 10)
          omega
        obtain ⟨ih1, ih2⟩ := ih (n / 10) hd1 hd2
        have hg := numDigitsGo_pos fuel (n / 10)
        rw [hrec]
        have hpow : 10 ^ numDigitsGo fuel (n / 10) = 10 ^ (numDigitsGo fuel (n / 10) - 1) * 10 := by
          rw [← pow_succ]
          congr 1
          omega
        have hpow2 : 10 ^ (numDigitsGo fuel (n / 10) + 1) = 10 ^ numDigitsGo fuel (n / 10) * 10 :=
          pow_succ 10 _
        have hs3 : numDigitsGo fuel (n / 10) + 1 - 1 = numDigitsGo fuel (n / 10) := by omega
        rw [hs3]
        omega

theorem numDigits_bounds (n : ℕ) (h : 1 ≤ n) :
    10 ^ (numDigits n - 1) ≤ n ∧ n < 10 ^ numDigits n :=
  numDigitsGo_bounds n n h le_rfl

/-- C9: `order()` fails with `OrderUndefinedForZero` on a zero value, and on a
nonzero value returns the unique integer `e` with `10^e ≤ |v| < 10^(e+1)`,
i.e. the floor of the base-10 logarithm of `|v|`. -/
theorem c9_order_floor_log10 :
    (∀ v : Decimal, v.coeff = 0 → order v = Except.error DecErr.orderUndefinedForZero) ∧
    (∀ v : Decimal, v.coeff ≠ 0 →
        order v = Except.ok ((numDigits v.coeff.natAbs : ℤ) - 1 - v.digits) ∧
        (10 : ℚ) ^ ((numDigits v.coeff.natAbs : ℤ) - 1 - v.digits) ≤ |val v| ∧
        |val v| < (10 : ℚ) ^ ((numDigits v.coeff.natAbs : ℤ) - 1 - v.digits + 1) ∧
        (∀ e' : ℤ, (10 : ℚ) ^ e' ≤ |val v| → |val v| < (10 : ℚ) ^ (e' + 1) →
          e' = (numDigits v.coeff.natAbs : ℤ) - 1 - v.digits)) := by
  have hmono : ∀ x y : ℤ, (10 : ℚ) ^ x < (10 : ℚ) ^ y → x < y := by
    intro x y hxy
    by_contra hc
    push_neg at hc
    exact absurd (zpow_le_zpow_right₀ (by norm_num : (1 : ℚ) ≤ 10) hc) (not_le.mpr hxy)
  constructor
  · intro v hv
    simp [order, hv]
  · intro v hv
    have hna : 1 ≤ v.coeff.natAbs := by
      have := Int.natAbs_pos.mpr hv
      omega
    obtain ⟨hb1, hb2⟩ := numDigits_bounds v.coeff.natAbs hna
    have hL : 1 ≤ numDigits v.coeff.natAbs := numDigitsGo_pos v.coeff.natAbs v.coeff.natAbs
    have ht : (0 : ℚ) < (10 : ℚ) ^ (-v.digits) := zpow_pos (by norm_num) _
    have habs : |val v| = (v.coeff.natAbs : ℚ) * (10 : ℚ) ^ (-v.digits) := by
      unfold val
      rw [abs_mul, abs_of_pos ht, Int.cast_natAbs, Int.cast_abs]
    have hcast1 : (10 : ℚ) ^ ((numDigits v.coeff.natAbs : ℤ) - 1) =
        ((10 ^ (numDigits v.coeff.natAbs - 1) : ℕ) : ℚ) := by
      have he : ((numDigits v.coeff.natAbs : ℤ) - 1) =
          ((numDigits v.coeff.natAbs - 1 : ℕ) : ℤ) := by omega
      rw [he, zpow_natCast]
      norm_cast
    have hcast2 : (10 : ℚ) ^ ((numDigits v.coeff.natAbs : ℤ)) =
        ((10 ^ numDigits v.coeff.natAbs : ℕ) : ℚ) := by
      rw [zpow_natCast]
      norm_cast
    have hsplit1 : (10 : ℚ) ^ ((numDigits v.coeff.natAbs : ℤ) - 1 - v.digits) =
        (10 : ℚ) ^ ((numDigits v.coeff.natAbs : ℤ) - 1) * (10 : ℚ) ^ (-v.digits) := by
      rw [← zpow_add₀ (by norm_num : (10 : ℚ) ≠ 0)]
      congr 1
    have hsplit2 : (10 : ℚ) ^ ((numDigits v.coeff.natAbs : ℤ) - 1 - v.digits + 1) =
        (10 : ℚ) ^ ((numDigits v.coeff.natAbs : ℤ)) * (10 : ℚ) ^ (-v.digits) := by
      rw [← zpow_add₀ (by norm_num : (10 : ℚ) ≠ 0)]
      congr 1
      ring
    have hlow : (10 : ℚ) ^ ((numDigits v.coeff.natAbs : ℤ) - 1 - v.digits) ≤ |val v| := by
      rw [hsplit1, habs, hcast1]
      exact mul_le_mul_of_nonneg_right (by exact_mod_cast hb1) (le_of_lt ht)
    have hhigh : |val v| < (10 : ℚ) ^ ((numDigits v.coeff.natAbs : ℤ) - 1 - v.digits + 1) := by
      rw [hsplit2, habs, hcast2]
      exact mul_lt_mul_of_pos_right (by exact_mod_cast hb2) ht
    refine ⟨by simp [order, hv], hlow, hhigh, ?_⟩
    intro e he1 he2
    have hx1 : e < (numDigits v.coeff.natAbs : ℤ) - 1 - v.digits + 1 :=
      hmono _ _ (lt_of_le_of_lt he1 hhigh)
    have hx2 : (numDigits v.coeff.natAbs : ℤ) - 1 - v.digits < e + 1 :=
      hmono _ _ (lt_of_le_of_lt hlow he2)
    omega

/-- Witness for C9 at `v = 3.5`: order 0 and `1 ≤ 3.5 < 10`. -/
theorem c9_order_floor_log10_witness :
    order ⟨35, 1⟩ = Except.ok ((numDigits (Int.natAbs 35) : ℤ) - 1 - 1) ∧
      (10 : ℚ) ^ ((numDigits (Int.natAbs 35) : ℤ) - 1 - 1) ≤ |val ⟨35, 1⟩| ∧
      |val ⟨35, 1⟩| < (10 : ℚ) ^ ((numDigits (Int.natAbs 35) : ℤ) - 1 - 1 + 1) :=
  ⟨(c9_order_floor_log10.2 ⟨35, 1⟩ (by decide)).1,
   (c9_order_floor_log10.2 ⟨35, 1⟩ (by decide)).2.1,
   (c9_order_floor_log10.2 ⟨35, 1⟩ (by decide)).2.2.1⟩

end Decimal
